import Mathlib

/-!
Verification of the LaTeX-to-Unicode / Unicode-to-LaTeX transcoding layer of
pyglottolog (`pyglottolog/monsterlib/_bibtex_escaping.py`).

Strings are modelled as lists of Unicode code points (`List Nat`).  The
pure string transforms of the source module — the legacy ASCII escape codec
(`u_escape` / `u_unescape`), the decode pipeline (`ulatex_preprocess`,
`ulatex_postprocess`, `recode_language_tags`) and the symbol-table
registration loop — are embedded as executable Lean functions.  Python
regex substitution (`re.sub` / `finditer`, non-overlapping leftmost
matches) is embedded by a generic left-to-right scanner `runScan` driven
by a matcher for the concrete pattern; the scanner carries fuel equal to
the input length so that every definition reduces inside the kernel.

The standard-library services used by the source (`unicodedata.name`,
`unicodedata.normalize('NFC', ...)`) are modelled explicitly:
`is_combining` by the Unicode blocks whose character names start with
"COMBINING", and `nfc` by the canonical-composition pass with a
composition table restricted to the base+mark pairs exercised here
(pairs absent from `compTable`, such as "q" + U+0301, have no precomposed
form in Unicode).
-/

/-- Code points of a Lean string literal; used to write concrete inputs. -/
def codes (s : String) : List Nat := s.data.map Char.toNat

/-- ASCII decimal digit, as matched by the regex class `[0-9]`. -/
def isDigitC (c : Nat) : Bool := 48 ≤ c && c ≤ 57

/-- ASCII whitespace, as matched by `\s` in a Python 2 pattern compiled
without `re.UNICODE` (space, tab, newline, carriage return, form feed,
vertical tab). -/
def isSpace (c : Nat) : Bool :=
  c == 32 || c == 9 || c == 10 || c == 13 || c == 12 || c == 11

/-- Models `is_combining` of the source: `unicodedata.name(c)` starts with
"COMBINING".  Embedded as the Unicode blocks whose assigned characters all
carry COMBINING-names (Combining Diacritical Marks and its extensions,
combining Cyrillic marks, combining half marks, Katakana-Hiragana voiced
sound marks). -/
def is_combining (c : Nat) : Bool :=
  (0x300 ≤ c && c ≤ 0x36F) || (0x483 ≤ c && c ≤ 0x489) ||
  (0x1AB0 ≤ c && c ≤ 0x1ACE) || (0x1DC0 ≤ c && c ≤ 0x1DFF) ||
  (0x20D0 ≤ c && c ≤ 0x20F0) || (0x2DE0 ≤ c && c ≤ 0x2DFF) ||
  (0x3099 ≤ c && c ≤ 0x309A) || (0xFE20 ≤ c && c ≤ 0xFE2F)

/-- `dropPref p s` returns `some r` with `s = p ++ r` when `p` is an initial
segment of `s`, else `none`; the building block for anchored regex matching. -/
def dropPref : List Nat → List Nat → Option (List Nat)
  | [], s => some s
  | _ :: _, [] => none
  | p :: ps, c :: t => if c = p then dropPref ps t else none

/-! ### Decimal digit strings

`decDigits n` is the list of ASCII codes of the decimal representation of
`n`, as produced by Python's `'%d' % n`.  A fueled helper keeps the
definition reducible in the kernel. -/

def decDigitsF : Nat → Nat → List Nat
  | 0, _ => []
  | fuel + 1, n =>
    if n < 10 then [48 + n] else decDigitsF fuel (n / 10) ++ [48 + n % 10]

def decDigits (n : Nat) : List Nat := decDigitsF (n + 1) n

/-- The numeric value that `int()` gives a digit string; used to model
`unichr(int(m.group('dec')))`. -/
def digitsToNat (ds : List Nat) : Nat := ds.foldl (fun a d => a * 10 + (d - 48)) 0

/-! ### Generic regex-substitution scanner

`runScan m s` walks `s` left to right; at each position the matcher `m`
either recognizes an anchored pattern occurrence — returning the
replacement text and the remainder after the match — or the current
character is copied.  This is Python `re.sub` with non-overlapping
leftmost matches.  The fuel argument of `scanSub` makes the definition
structurally recursive (hence kernel-reducible); `s.length` fuel always
suffices because matchers consume at least one character. -/

def scanSub (m : List Nat → Option (List Nat × List Nat)) :
    Nat → List Nat → List Nat
  | _, [] => []
  | 0, c :: t => c :: t
  | fuel + 1, c :: t =>
    match m (c :: t) with
    | some (out, r) => out ++ scanSub m fuel r
    | none => c :: scanSub m fuel t

def runScan (m : List Nat → Option (List Nat × List Nat)) (s : List Nat) :
    List Nat :=
  scanSub m s.length s

/-- A matcher shrinks: the remainder after a match is strictly shorter. -/
def Shrinks (m : List Nat → Option (List Nat × List Nat)) : Prop :=
  ∀ s out r, m s = some (out, r) → r.length < s.length

/-- Fallible variant of the scanner for substitutions whose replacement
function can raise (Python propagates the exception out of `re.sub`): the
matcher returns `some (none, _)` when the pattern matches but the
replacement raises, and the whole substitution then fails. -/
def scanSubF (m : List Nat → Option (Option (List Nat) × List Nat)) :
    Nat → List Nat → Option (List Nat)
  | _, [] => some []
  | 0, c :: t => some (c :: t)
  | fuel + 1, c :: t =>
    match m (c :: t) with
    | some (some out, r) => (scanSubF m fuel r).map (fun rest => out ++ rest)
    | some (none, _) => none
    | none => (scanSubF m fuel t).map (fun rest => c :: rest)

def runScanF (m : List Nat → Option (Option (List Nat) × List Nat))
    (s : List Nat) : Option (List Nat) :=
  scanSubF m s.length s

/-- Shrinking for fallible matchers. -/
def ShrinksF (m : List Nat → Option (Option (List Nat) × List Nat)) : Prop :=
  ∀ s out r, m s = some (out, r) → r.length < s.length

/-! ### Legacy ASCII escape codec (`u_escape` / `u_unescape`) -/

/-- `u_escape` of the source: code points above 127 become the literal
token `?[\uDDD]` with the decimal value, ASCII passes through. -/
def u_escape : List Nat → List Nat
  | [] => []
  | c :: t =>
    (if c ≤ 127 then [c] else [63, 91, 92, 117] ++ decDigits c ++ [93]) ++ u_escape t

/-- Anchored matcher for the `u_unescape` pattern `\?\[\\u(\d{3,5})\]`:
the digit run after `?[\u` must have length 3 to 5 and be followed by `]`
(regex backtracking over `\d{3,5}` succeeds exactly in that case because
digits and `]` are disjoint). -/
def mUnesc (s : List Nat) : Option (List Nat × List Nat) :=
  (dropPref [63, 91, 92, 117] s).bind fun r4 =>
    if 3 ≤ (r4.takeWhile isDigitC).length ∧ (r4.takeWhile isDigitC).length ≤ 5 ∧
        (r4.dropWhile isDigitC).head? = some 93 then
      some ([digitsToNat (r4.takeWhile isDigitC)], (r4.dropWhile isDigitC).tail)
    else none

/-- `u_unescape` of the source: replace every non-overlapping occurrence of
the escape pattern by the code point with the matched decimal value. -/
def u_unescape (s : List Nat) : List Nat := runScan mUnesc s

/-- `hasPatB s` holds when the `u_unescape` pattern `\?\[\\u\d{3,5}\]`
occurs somewhere in `s`. -/
def hasPatB : List Nat → Bool
  | [] => false
  | c :: t => (mUnesc (c :: t)).isSome || hasPatB t

/-! ### Decode pipeline: `ulatex_postprocess` and friends -/

/-- Anchored matcher for a literal replacement, modelling
`str.replace(pat, rep)` when run under `runScan`. -/
def mRepl (pat rep : List Nat) (s : List Nat) : Option (List Nat × List Nat) :=
  if pat.isEmpty then none else (dropPref pat s).map (fun r => (rep, r))

/-- `str.replace(pat, rep)`: all non-overlapping occurrences, left to right. -/
def replaceAll (pat rep s : List Nat) : List Nat := runScan (mRepl pat rep) s

/-- Shared tail of the brace-argument patterns: a non-empty run of
non-`}` characters followed by `}` (regex `([^\}]+)\}`), returning the
argument and the remainder after the closing brace. -/
def braceArg (r : List Nat) : Option (List Nat × List Nat) :=
  if (r.takeWhile (fun c => !(c == 125))).isEmpty then none
  else if (r.dropWhile (fun c => !(c == 125))).head? = some 125 then
    some (r.takeWhile (fun c => !(c == 125)), (r.dropWhile (fun c => !(c == 125))).tail)
  else none

/-- Anchored matcher for `\\name \{([^\}]+)\}` (note the mandatory space),
one of the four `command_patterns` of the source; the replacement is the
argument text. -/
def mCmd (name : String) (s : List Nat) : Option (List Nat × List Nat) :=
  (dropPref (92 :: codes name ++ [32, 123]) s).bind braceArg

/-- Anchored matcher for the `debracket` pattern `\{([^\}]+)\}`. -/
def mDebracket (s : List Nat) : Option (List Nat × List Nat) :=
  (dropPref [123] s).bind braceArg

/-- The four argument-bearing commands whose braces are stripped. -/
def command_names : List String := ["url", "emph", "textit", "texttt"]

/-- The `for p in command_patterns: s = p.sub(...)` loop of
`ulatex_postprocess`. -/
def cmdPatsSub (s : List Nat) : List Nat :=
  command_names.foldl (fun s n => runScan (mCmd n) s) s

/-- `numcharref_repl`'s `unichr(int(...))`: the code point for values
below 0x110000, and `none` for the `ValueError` that `unichr` raises at
or above the code-point ceiling. -/
def unichrRepl (n : Nat) : Option (List Nat) :=
  if n < 0x110000 then some [n] else none

/-- Digit-run-plus-terminator core of the first numeric charref pattern:
`(\d+);` after the anchor; the replacement is `unichrRepl` of the value
(so a reference at or above 0x110000 makes the substitution raise). -/
def numCore (r : List Nat) : Option (Option (List Nat) × List Nat) :=
  if (r.takeWhile isDigitC).isEmpty then none
  else if (r.dropWhile isDigitC).head? = some 59 then
    some (unichrRepl (digitsToNat (r.takeWhile isDigitC)), (r.dropWhile isDigitC).tail)
  else none

/-- Anchored matcher for `\\?&#(?P<dec>[0-9]+);`: an optionally
backslash-prefixed decimal character reference. -/
def mNum1 (s : List Nat) : Option (Option (List Nat) × List Nat) :=
  match dropPref [92, 38, 35] s with
  | some r => numCore r
  | none =>
    match dropPref [38, 35] s with
    | some r => numCore r
    | none => none

/-- Digit-run-plus-terminator core of the second numeric charref pattern:
`(\d+)\]` after the anchor and optional whitespace; the replacement is
again `unichrRepl` of the value. -/
def numCoreBr (r : List Nat) : Option (Option (List Nat) × List Nat) :=
  if (r.takeWhile isDigitC).isEmpty then none
  else if (r.dropWhile isDigitC).head? = some 93 then
    some (unichrRepl (digitsToNat (r.takeWhile isDigitC)), (r.dropWhile isDigitC).tail)
  else none

/-- Anchored matcher for `\?\[\\u\s*(?P<dec>[0-9]+)\]` (note: any number
of digits, unlike the 3-5 digit bound of `u_unescape`). -/
def mNum2 (s : List Nat) : Option (Option (List Nat) × List Nat) :=
  match dropPref [63, 91, 92, 117] s with
  | some r0 => numCoreBr (r0.dropWhile isSpace)
  | none => none

/-- The `language_tags` table of the source, in source order. -/
def language_tags : List (String × String) :=
  [("latin", "lat"), ("zh", "zho"), ("hindi", "hin"), ("eng", "eng"),
   ("viet", "vie"), ("tib", "bod"), ("skt", "san"), ("gujarati", "guj"),
   ("pacoh", "pac"), ("thai", "tha"), ("dutch", "nld"), ("burm", "mya"),
   ("dan", "dan"), ("norw", "nor"), ("oldkhmer", "qok"), ("ital", "ita"),
   ("santali", "sat"), ("span", "spa"), ("germ", "deu"), ("fr", "fra"),
   ("rus", "rus")]

/-- One alternative of the `language_tag_pattern` alternation after the
leading backslash: the tag followed by at least one whitespace character. -/
def langTry (tag code : String) (s : List Nat) : Option (String × List Nat) :=
  (dropPref (codes tag) s).bind fun r =>
    if r.head?.any isSpace then some (code, r) else none

/-- Try the alternation alternatives in table order.  At most one tag can
match at a given position because no tag is a prefix of another, so the
alternation order (an unordered Python 2 dict iteration in the source) is
immaterial. -/
def langFind : List (String × String) → List Nat → Option (String × List Nat)
  | [], _ => none
  | (tag, code) :: tbl, s => (langTry tag code s).or (langFind tbl s)

/-- Anchored matcher for `\\(?P<tag>latin|zh|...)\s+`; the replacement is
`[<code>] ` and the greedy `\s+` consumes all following whitespace. -/
def mLang (s : List Nat) : Option (List Nat × List Nat) :=
  if s.head? = some 92 then
    (langFind language_tags s.tail).map
      (fun p => (codes ("[" ++ p.1 ++ "] "), p.2.dropWhile isSpace))
  else none

/-- `recode_language_tags` of the source. -/
def recode_language_tags (s : List Nat) : List Nat := runScan mLang s

/-- The loop of `ulatex_postprocess` that buffers combining marks in
`comb` (`comb.append` / `comb.pop()`, i.e. a stack: our list is kept in
reversed buffering order so popping is emitting the list as is) and
re-emits them after the next non-combining character; marks left in the
buffer at the end of the string are dropped. -/
def reorderAux : List Nat → List Nat → List Nat
  | _, [] => []
  | comb, c :: t =>
    if is_combining c then reorderAux (c :: comb) t
    else c :: (comb ++ reorderAux [] t)

def reorderCombining (s : List Nat) : List Nat := reorderAux [] s

/-- The fixed command-stripping list of `ulatex_postprocess`, in source
order. -/
def strip_commands : List String := ["relax", "it", "em", "textsc", "cite", "citet"]

/-- The `s.replace('\\' + cmd + ' ', '')` loop. -/
def stripAll (s : List Nat) : List Nat :=
  strip_commands.foldl (fun s c => replaceAll (92 :: codes c ++ [32]) [] s) s

/-- Canonical composition pairs (base, mark, composed) used to model NFC;
restricted to the precomposed Latin letters this development evaluates.
Pairs absent here (for example "q" or "x" with any mark) have no
precomposed form in Unicode. -/
def compTable : List (Nat × Nat × Nat) :=
  [(97, 769, 225), (97, 768, 224), (97, 776, 228), (97, 771, 227),
   (97, 772, 257), (97, 808, 261), (101, 769, 233), (101, 768, 232),
   (101, 776, 235), (101, 771, 7869), (101, 772, 275), (101, 808, 281),
   (105, 769, 237), (111, 769, 243), (111, 776, 246), (117, 769, 250),
   (117, 776, 252), (110, 771, 241)]

def compLookup (b c : Nat) : Option Nat :=
  (compTable.find? (fun p => p.1 == b && p.2.1 == c)).map (fun p => p.2.2)

/-- Canonical composition pass modelling `unicodedata.normalize('NFC', s)`:
`b` is the pending character; a following mark composes with it when the
pair is canonical and not blocked.  The Boolean is true while scanning a
run of marks after a non-composable mark (all marks relevant here have
combining class 230, so an earlier mark in the run blocks all later ones
until the next starter). -/
def nfcGo : Bool → Nat → List Nat → List Nat
  | _, b, [] => [b]
  | true, b, c :: t => b :: nfcGo (is_combining c) c t
  | false, b, c :: t =>
    match compLookup b c with
    | some bc => nfcGo false bc t
    | none => b :: nfcGo (is_combining c) c t

def nfc : List Nat → List Nat
  | [] => []
  | c :: t => nfcGo false c t

/-- `ulatex_preprocess` of the source: NFC-normalize, then reject (the
source raises `ValueError`, modelled as `none`) if any combining mark is
present in the normalized string.  The UTF-8 byte decoding of the source
is modelled away: inputs are already sequences of code points. -/
def ulatex_preprocess (s : List Nat) : Option (List Nat) :=
  if (nfc s).any is_combining then none else some (nfc s)

/-- The brace stages of `ulatex_postprocess`: the four command patterns,
`'{}'` removal, then two `debracket` passes. -/
def bracesSub (s : List Nat) : List Nat :=
  runScan mDebracket (runScan mDebracket (replaceAll [123, 125] [] (cmdPatsSub s)))

/-- The numeric character reference stage: the two patterns in source
order; `none` when a matched reference makes `unichr` raise. -/
def numrefSub (s : List Nat) : Option (List Nat) :=
  (runScanF mNum1 s).bind (runScanF mNum2)

/-- `ulatex_postprocess` of the source, stage for stage and in source
order: the four command patterns, `'{}'` removal plus two `debracket`
passes, combining-mark reordering, the two numeric charref patterns,
command stripping, language tags, final NFC.  The result is `none` when
the numeric-reference stage raises (a matched reference at or above
0x110000), the one exception this function can propagate. -/
def ulatex_postprocess (s : List Nat) : Option (List Nat) :=
  (numrefSub (reorderCombining (bracesSub s))).map
    (fun s4 => nfc (recode_language_tags (stripAll s4)))

/-! ### Symbol table and registration loop

Entries are (Unicode character name, code point, LaTeX spellings); names
are kept as code-point lists so that the lexicographic order used by
`sorted(..., reverse=True)` is computable.  The code point of each name is
the value of `unicodedata.lookup(name)`. -/

abbrev Entry := List Nat × Nat × List (List Nat)

/-- The `LATEX_TABLE` of the source, in source order, with singleton
values normalized to one-element lists as the registration loop does. -/
def LATEX_TABLE : List Entry :=
  [(codes "COMBINING DOT BELOW", 0x323, [codes "\\textsubdot"]),
   (codes "COMBINING MACRON", 0x304, [codes "\\=", codes "\\textbar"]),
   (codes "COMBINING MACRON BELOW", 0x331, [codes "\\textsubbar", codes "\\textsubline"]),
   (codes "COMBINING COMMA BELOW", 0x326, [codes "\\,", codes "\\cb"]),
   (codes "COMBINING TILDE BELOW", 0x330, [codes "\\textsubtilde"]),
   (codes "COMBINING CARON", 0x30C, [codes "\\v"]),
   (codes "COMBINING CARON BELOW", 0x32C, [codes "\\textsubwedge"]),
   (codes "COMBINING CIRCUMFLEX ACCENT", 0x302, [codes "\\^"]),
   (codes "COMBINING ACUTE ACCENT", 0x301, [[92, 39]]),
   (codes "COMBINING GRAVE ACCENT", 0x300, [codes "\\`"]),
   (codes "COMBINING DIAERESIS", 0x308, [codes "\\\""]),
   (codes "COMBINING LATIN SMALL LETTER C", 0x368, [codes "\\textsuperscript{c}"]),
   (codes "COMBINING RING BELOW", 0x325, [codes "\\textsubring"]),
   (codes "COMBINING OGONEK", 0x328, [codes "\\textpolhook"]),
   (codes "COMBINING TILDE", 0x303, [codes "\\~"]),
   (codes "COMBINING DOUBLE GRAVE ACCENT", 0x30F, [codes "\\textdoublegrave"]),
   (codes "COMBINING BREVE BELOW", 0x32E, [codes "\\textsubu"]),
   (codes "COMBINING BRIDGE BELOW", 0x32A, [codes "\\textsubbridge"]),
   (codes "COMBINING HORN", 0x31B, [codes "\\;"]),
   (codes "COMBINING DOT ABOVE", 0x307, [codes "\\.", codes "\\textdot", codes "\\:"]),
   (codes "MASCULINE ORDINAL INDICATOR", 0xBA, [codes "\\textordmasculine"]),
   (codes "LEFT SINGLE QUOTATION MARK", 0x2018, [codes "\\textquoteleft", codes "\\grq"]),
   (codes "SINGLE LOW-9 QUOTATION MARK", 0x201A, [codes "\\glq"]),
   (codes "RIGHT SINGLE QUOTATION MARK", 0x2019, [codes "\\textquoteright"]),
   (codes "NOT SIGN", 0xAC, [codes "\\textlnot"]),
   (codes "VULGAR FRACTION THREE QUARTERS", 0xBE, [codes "\\textthreequarters"]),
   (codes "LATIN SMALL LETTER A WITH RING ABOVE", 0xE5, [codes "\\r{a}"]),
   (codes "LATIN CAPITAL LETTER A WITH RING ABOVE", 0xC5, [codes "\\r{A}"]),
   (codes "MODIFIER LETTER SMALL W", 0x2B7, [codes "\\textsuperscript{w}"]),
   (codes "SUPERSCRIPT ONE", 0xB9, [codes "\\textsuperscript{1}"]),
   (codes "SUPERSCRIPT TWO", 0xB2, [codes "\\textsuperscript{2}"]),
   (codes "SUPERSCRIPT THREE", 0xB3, [codes "\\textsuperscript{3}"]),
   (codes "SUPERSCRIPT FOUR", 0x2074, [codes "\\textsuperscript{4}"]),
   (codes "SUPERSCRIPT LATIN SMALL LETTER N", 0x207F, [codes "\\textsuperscript{n}"]),
   (codes "PERCENT SIGN", 0x25, [codes "\\%"]),
   (codes "LATIN SMALL LETTER D WITH HOOK", 0x257,
     [codes "\\texthtd", codes "\\texthooktopd", codes "\\textrhooktopd", codes "\\!d"]),
   (codes "LATIN SMALL LETTER D WITH TAIL", 0x256, [codes "\\:{d}"]),
   (codes "LATIN SMALL LETTER B WITH HOOK", 0x253, [codes "\\texthtb", codes "\\texthooktopb"]),
   (codes "LATIN SMALL LETTER N WITH LEFT HOOK", 0x272, [codes "\\textltailn"]),
   (codes "LATIN SMALL LETTER S WITH HOOK", 0x282, [codes "\\textrtails"]),
   (codes "LATIN SMALL LETTER ETH", 0xF0, [codes "\\dh", codes "\\textdh"]),
   (codes "LATIN CAPITAL LETTER ETH", 0xD0, [codes "\\DH"]),
   (codes "LATIN SMALL LETTER ENG", 0x14B, [codes "\\ng", codes "\\textipa{N}"]),
   (codes "LATIN CAPITAL LETTER ENG", 0x14A, [codes "\\NG"]),
   (codes "LATIN SMALL LETTER OPEN O", 0x254, [codes "\\textopeno"]),
   (codes "LATIN CAPITAL LETTER THORN", 0xDE, [codes "\\TH"]),
   (codes "LATIN SMALL LETTER THORN", 0xFE, [codes "\\textthorn", codes "\\th"]),
   (codes "LATIN LETTER GLOTTAL STOP", 0x294, [codes "\\textglotstop"]),
   (codes "LATIN LETTER INVERTED GLOTTAL STOP", 0x296, [codes "\\textrevglotstop"]),
   (codes "LATIN SMALL LETTER SCHWA", 0x259, [codes "\\textschwa"]),
   (codes "LATIN SMALL LETTER R WITH TAIL", 0x27D, [codes "\\textrtailr"]),
   (codes "LATIN SMALL LETTER BARRED O", 0x275, [codes "\\texttheta"]),
   (codes "LATIN SMALL LETTER O WITH HORN", 0x1A1, [codes "\\ohorn"]),
   (codes "MODIFIER LETTER GLOTTAL STOP", 0x2C0, [codes "\\textraiseglotstop"]),
   (codes "LATIN SMALL LETTER I WITH STROKE", 0x268, [codes "\\textbari"]),
   (codes "LATIN SMALL LETTER E WITH TILDE", 0x1EBD, [codes "\\~e"]),
   (codes "INVERTED QUESTION MARK", 0xBF, [codes "\\textquestiondown"]),
   (codes "INVERTED EXCLAMATION MARK", 0xA1,
     [codes "\\textexclamationdown", codes "\\textexclamdown"]),
   (codes "HORIZONTAL ELLIPSIS", 0x2026, [codes "\\dots"]),
   (codes "RIGHT DOUBLE QUOTATION MARK", 0x201D, [codes "\\textquotedblright"]),
   (codes "LEFT DOUBLE QUOTATION MARK", 0x201C, [codes "\\textquotedblleft"]),
   (codes "LEFT-POINTING DOUBLE ANGLE QUOTATION MARK", 0xAB, [codes "\\guillemotleft"]),
   (codes "RIGHT-POINTING DOUBLE ANGLE QUOTATION MARK", 0xBB, [codes "\\guillemotright"]),
   (codes "LATIN LETTER ALVEOLAR CLICK", 0x1C2,
     [codes "\\textdoublebarpipe", codes "\\textdoublebarpipevar"]),
   (codes "PLUS-MINUS SIGN", 0xB1, [codes "\\plusminus"]),
   (codes "LATIN SMALL LETTER E WITH MACRON AND ACUTE", 0x1E17, [codes "\\textacutemacron e"]),
   (codes "LATIN SMALL LETTER E WITH OGONEK", 0x119, [codes "\\textpolhook e"]),
   (codes "LATIN SMALL LETTER A WITH OGONEK", 0x105, [codes "\\c{a}"]),
   (codes "LATIN SMALL LETTER TURNED M", 0x26F, [codes "\\textturnm"]),
   (codes "MODIFIER LETTER TRIANGULAR COLON", 0x2D0, [codes "\\textlengthmark"]),
   (codes "LESS-THAN SIGN", 0x3C, [codes "\\textless"]),
   (codes "GREATER-THAN SIGN", 0x3E, [codes "\\textgreater"]),
   (codes "LATIN CROSS", 0x271D, [codes "\\textbarpipe"]),
   (codes "LATIN SMALL LETTER OPEN E", 0x25B, [codes "\\textepsilon"]),
   (codes "LATIN SMALL LETTER GAMMA", 0x263, [codes "\\textgamma", codes "\\gamma"]),
   (codes "LATIN SMALL LETTER TURNED V", 0x28C, [codes "\\textturnv"]),
   (codes "GREEK SMALL LETTER BETA", 0x3B2, [codes "\\textbeta"]),
   (codes "GREEK CAPITAL LETTER ETA", 0x397, [codes "\\textEta"]),
   (codes "GREEK SMALL LETTER OMEGA", 0x3C9, [codes "\\textomega"]),
   (codes "LATIN SMALL LETTER UPSILON", 0x28A, [codes "\\textupsilon"]),
   (codes "LATIN SMALL LETTER ESH", 0x283, [codes "\\textesh"]),
   (codes "CYRILLIC SMALL LETTER HARD SIGN", 0x44A, [codes "\\texthardsign"]),
   (codes "EURO SIGN", 0x20AC, [codes "\\eurosign"]),
   (codes "DEGREE SIGN", 0xB0, [codes "\\circ"]),
   (codes "VERTICAL LINE", 0x7C, [codes "\\textvertline"]),
   (codes "DOUBLE VERTICAL LINE", 0x2016, [codes "\\textdoublevertline"]),
   (codes "LATIN SMALL LETTER T WITH RETROFLEX HOOK", 0x288, [codes "\\:{t}"]),
   (codes "LATIN SMALL LETTER H WITH STROKE", 0x127, [codes "\\textcrh"]),
   (codes "LATIN SMALL LETTER REVERSED OPEN E", 0x25C, [codes "\\textrevepsilon"]),
   (codes "LATIN SMALL LETTER PHI", 0x278, [codes "\\textphi"]),
   (codes "GREEK SMALL LETTER CHI", 0x3C7, [codes "\\textchi"])]

/-- Lexicographic order on code-point lists; this is exactly how Python
compares the unicode name strings used as sort keys. -/
def lexLe : List Nat → List Nat → Bool
  | [], _ => true
  | _ :: _, [] => false
  | a :: x, b :: y => if a < b then true else if b < a then false else lexLe x y

def lexLt (a b : List Nat) : Bool := lexLe a b && !(lexLe b a)

/-- Stable insertion into a list kept in descending name order. -/
def insertDesc (e : Entry) : List Entry → List Entry
  | [] => [e]
  | x :: t => if lexLe e.1 x.1 then x :: insertDesc e t else e :: x :: t

/-- `sorted(list(LATEX_TABLE.items()), key=lambda t: t[0], reverse=True)`:
a stable sort into reverse lexicographic order by Unicode name. -/
def sortRevByName (t : List Entry) : List Entry := t.foldr insertDesc []

/-- The entries in the order the registration loop processes them. -/
def registrationList : List Entry := sortRevByName LATEX_TABLE

/-- Modelled from the spec: `table.register(uchar, lt)` of the external
latexcodec table adds the inverse mapping latex-spelling -> code point
with last-write-wins shadowing; prepending to an association list that is
searched from the front realizes exactly that. -/
def registerEntry (m : List (List Nat × Nat)) (e : Entry) : List (List Nat × Nat) :=
  e.2.2.foldl (fun m sp => (sp, e.2.1) :: m) m

/-- The registration loop `for unicode_text, latex_text in sorted(...)`. -/
def buildInv (t : List Entry) : List (List Nat × Nat) := t.foldl registerEntry []

def invLookup (m : List (List Nat × Nat)) (l : List Nat) : Option Nat :=
  (m.find? (fun p => p.1 == l)).map (fun p => p.2)

/-- The inverse table of the override entries after registration; its head
is the most recent registration, so front-first search realizes the
last-write-wins shadowing. -/
def invSpellings : List (List Nat × Nat) := buildInv registrationList

/-- Modelled from the spec: stage 3 of the decode pipeline ("replace each
recognized LaTeX command occurrence ...; longest/most-specific pattern
wins"), restricted to the override table (the base latexcodec table is
external).  Returns the longest spelling that is a prefix of `s`, with
ties broken toward the most recent registration. -/
def bestMatch : List (List Nat × Nat) → List Nat → Option (Nat × Nat × List Nat)
  | [], _ => none
  | (sp, cp) :: tbl, s =>
    let best := bestMatch tbl s
    if sp.isEmpty then best
    else
      match dropPref sp s with
      | some r =>
        match best with
        | some (len2, cp2, r2) =>
          if len2 ≤ sp.length then some (sp.length, cp, r) else some (len2, cp2, r2)
        | none => some (sp.length, cp, r)
      | none => best

def mTable (s : List Nat) : Option (List Nat × List Nat) :=
  (bestMatch invSpellings s).map (fun b => ([b.2.1], b.2.2))

/-- The table-substitution stage (`.decode('ulatex')` restricted to the
override table): recognized spellings become their code point, everything
else is copied. -/
def ulatexSub (s : List Nat) : List Nat := runScan mTable s

/-- The canonical spelling of an entry is its first variant (spec section
3: "the *first* entry is the canonical spelling used for encoding"). -/
def canonicalSpelling (e : Entry) : List Nat := e.2.2.headD []

def fwdLookup (c : Nat) : Option (List Nat) :=
  (LATEX_TABLE.find? (fun e => e.2.1 == c)).map canonicalSpelling

/-- Modelled from the spec: `encode_to_latex` (the `.encode('latex')`
direction) maps each code point with an override entry to its canonical
spelling and passes every other character through. -/
def encode_to_latex : List Nat → List Nat
  | [] => []
  | c :: t => ((fwdLookup c).getD [c]) ++ encode_to_latex t

/-- `ulatex_decode` of the source:
`ulatex_postprocess(ulatex_preprocess(s).decode('ulatex'))`; `none` models
a `ValueError`, raised either by the preprocess stage or by the
numeric-reference stage of the postprocess. -/
def ulatex_decode (s : List Nat) : Option (List Nat) :=
  (ulatex_preprocess s).bind (fun t => ulatex_postprocess (ulatexSub t))

/-- Round-trip stability of the decoded form at `s`:
`decode(encode(decode(s))) == decode(s)` whenever `decode(s)` succeeds. -/
def rtStableB (s : List Nat) : Bool :=
  match ulatex_decode s with
  | none => true
  | some u => ulatex_decode (encode_to_latex u) == some u

/-! ### Theorems -/

theorem dropPref_eq_some {p s r : List Nat} :
    dropPref p s = some r ↔ s = p ++ r := by
  induction p generalizing s with
  | nil => simp [dropPref]
  | cons a p ih =>
    cases s with
    | nil => simp [dropPref]
    | cons c t =>
      by_cases hc : c = a
      · subst hc
        simp [dropPref, ih]
      · simp [dropPref, hc, Ne.symm hc]

theorem dropPref_append (p r : List Nat) : dropPref p (p ++ r) = some r :=
  dropPref_eq_some.mpr rfl

theorem dropPref_length {p s r : List Nat} (h : dropPref p s = some r) :
    r.length + p.length = s.length := by
  have := dropPref_eq_some.mp h
  subst this
  simp [Nat.add_comm]

theorem length_dropWhileLe (p : Nat → Bool) (l : List Nat) :
    (l.dropWhile p).length ≤ l.length := by
  induction l with
  | nil => simp
  | cons c t ih =>
    by_cases h : p c
    · simp only [List.dropWhile_cons, h, if_true]
      exact Nat.le_succ_of_le ih
    · simp [List.dropWhile_cons, h]

theorem takeWhile_eq_of_sandwich (p : Nat → Bool) (ds : List Nat) (e : Nat)
    (r : List Nat) (hds : ∀ d ∈ ds, p d = true) (he : p e = false) :
    (ds ++ e :: r).takeWhile p = ds ∧ (ds ++ e :: r).dropWhile p = e :: r := by
  induction ds with
  | nil => simp [List.takeWhile_cons, List.dropWhile_cons, he]
  | cons d ds ih =>
    have hd : p d = true := hds d (by simp)
    have ih2 := ih (fun x hx => hds x (by simp [hx]))
    simp [List.takeWhile_cons, List.dropWhile_cons, hd, ih2.1, ih2.2]

theorem digitsToNat_append (xs : List Nat) (d : Nat) :
    digitsToNat (xs ++ [d]) = digitsToNat xs * 10 + (d - 48) := by
  simp [digitsToNat, List.foldl_append]

theorem decDigitsF_val : ∀ fuel n, n < 10 ^ fuel →
    digitsToNat (decDigitsF fuel n) = n := by
  intro fuel
  induction fuel with
  | zero =>
    intro n h
    simp at h
    simp [decDigitsF, digitsToNat, h]
  | succ f ih =>
    intro n h
    by_cases h10 : n < 10
    · simp only [decDigitsF, h10, if_true]
      simp [digitsToNat]
    · have hdiv : n / 10 < 10 ^ f := by
        have : n < 10 * 10 ^ f := by
          rw [Nat.pow_succ] at h; omega
        exact Nat.div_lt_of_lt_mul this
      simp only [decDigitsF, h10, if_false]
      rw [digitsToNat_append, ih _ hdiv]
      omega

theorem self_lt_ten_pow (n : Nat) : n < 10 ^ (n + 1) :=
  lt_trans (Nat.lt_succ_self n) (Nat.lt_pow_self (by norm_num) (n + 1))

theorem decDigits_val (n : Nat) : digitsToNat (decDigits n) = n :=
  decDigitsF_val _ _ (self_lt_ten_pow n)

theorem decDigitsF_digits : ∀ fuel n d, d ∈ decDigitsF fuel n → isDigitC d = true := by
  intro fuel
  induction fuel with
  | zero => intro n d h; simp [decDigitsF] at h
  | succ f ih =>
    intro n d h
    by_cases h10 : n < 10
    · simp [decDigitsF, h10] at h
      simp [isDigitC, h]
      omega
    · simp only [decDigitsF, h10, if_false, List.mem_append, List.mem_singleton] at h
      rcases h with h | h
      · exact ih _ _ h
      · have : n % 10 < 10 := Nat.mod_lt _ (by omega)
        simp [isDigitC, h]
        omega

theorem decDigits_digits {n d : Nat} (h : d ∈ decDigits n) : isDigitC d = true :=
  decDigitsF_digits _ _ _ h

theorem digit_le_127 {d : Nat} (h : isDigitC d = true) : d ≤ 127 := by
  simp [isDigitC] at h
  omega

theorem decDigitsF_len_le : ∀ fuel k n, 1 ≤ k → n < 10 ^ k →
    (decDigitsF fuel n).length ≤ k := by
  intro fuel
  induction fuel with
  | zero => intro k n _ _; simp [decDigitsF]
  | succ f ih =>
    intro k n hk h
    by_cases h10 : n < 10
    · simp [decDigitsF, h10]
      omega
    · have hk2 : 2 ≤ k := by
        by_contra hlt
        have : k = 1 := by omega
        subst this
        simp [Nat.pow_one] at h
        omega
      have hdiv : n / 10 < 10 ^ (k - 1) := by
        have hk1 : k - 1 + 1 = k := by omega
        have hrw : 10 ^ k = 10 ^ (k - 1) * 10 := by
          conv_lhs => rw [← hk1, Nat.pow_succ]
        rw [hrw] at h
        exact Nat.div_lt_of_lt_mul (by omega)
      have := ih (k - 1) (n / 10) (by omega) hdiv
      simp only [decDigitsF, h10, if_false, List.length_append, List.length_singleton]
      omega

theorem decDigitsF_len_ge1 : ∀ fuel n, 1 ≤ fuel → 1 ≤ (decDigitsF fuel n).length := by
  intro fuel n hf
  cases fuel with
  | zero => omega
  | succ f =>
    by_cases h10 : n < 10
    · simp [decDigitsF, h10]
    · simp [decDigitsF, h10]

theorem decDigitsF_len_ge3 : ∀ fuel n, 100 ≤ n → n < fuel →
    3 ≤ (decDigitsF fuel n).length := by
  intro fuel
  induction fuel with
  | zero => intro n _ h; omega
  | succ f ih =>
    intro n hn hf
    have h10 : ¬ n < 10 := by omega
    simp only [decDigitsF, h10, if_false, List.length_append, List.length_singleton]
    -- n / 10 ≥ 10; show its digits have length ≥ 2
    have h2 : 2 ≤ (decDigitsF f (n / 10)).length := by
      cases f with
      | zero => omega
      | succ f2 =>
        have hd10 : ¬ n / 10 < 10 := by omega
        simp only [decDigitsF, hd10, if_false, List.length_append, List.length_singleton]
        have : 1 ≤ (decDigitsF f2 (n / 10 / 10)).length := by
          apply decDigitsF_len_ge1
          omega
        omega
    omega

theorem decDigits_len_ge3 {n : Nat} (h : 100 ≤ n) : 3 ≤ (decDigits n).length :=
  decDigitsF_len_ge3 _ _ h (by omega)

theorem decDigits_len_le5 {n : Nat} (h : n < 100000) : (decDigits n).length ≤ 5 := by
  apply decDigitsF_len_le _ 5 _ (by omega)
  norm_num
  omega

theorem scanSub_congr {m : List Nat → Option (List Nat × List Nat)}
    (hm : Shrinks m) :
    ∀ f1 f2 s, s.length ≤ f1 → s.length ≤ f2 → scanSub m f1 s = scanSub m f2 s := by
  intro f1
  induction f1 with
  | zero =>
    intro f2 s h1 _
    have : s = [] := List.length_eq_zero.mp (by omega)
    subst this
    cases f2 <;> rfl
  | succ f ih =>
    intro f2 s h1 h2
    cases s with
    | nil => cases f2 <;> rfl
    | cons c t =>
      cases f2 with
      | zero => simp at h2
      | succ f2 =>
        show (match m (c :: t) with
              | some (out, r) => out ++ scanSub m f r
              | none => c :: scanSub m f t)
            = (match m (c :: t) with
              | some (out, r) => out ++ scanSub m f2 r
              | none => c :: scanSub m f2 t)
        have h1' : t.length + 1 ≤ f + 1 := by simpa using h1
        have h2' : t.length + 1 ≤ f2 + 1 := by simpa using h2
        cases hmatch : m (c :: t) with
        | some p =>
          obtain ⟨out, r⟩ := p
          have hr : r.length < t.length + 1 := by simpa using hm _ _ _ hmatch
          simp only
          rw [ih f2 r (by omega) (by omega)]
        | none =>
          simp only
          rw [ih f2 t (by omega) (by omega)]

theorem runScan_nil (m : List Nat → Option (List Nat × List Nat)) :
    runScan m [] = [] := rfl

theorem runScan_cons_some {m : List Nat → Option (List Nat × List Nat)}
    (hm : Shrinks m) {c : Nat} {t out r : List Nat}
    (h : m (c :: t) = some (out, r)) :
    runScan m (c :: t) = out ++ runScan m r := by
  have hr := hm _ _ _ h
  show scanSub m (t.length + 1) (c :: t) = out ++ runScan m r
  show (match m (c :: t) with
        | some (out, r) => out ++ scanSub m t.length r
        | none => c :: scanSub m t.length t) = out ++ runScan m r
  rw [h]
  simp only
  rw [scanSub_congr hm t.length r.length r (by simp at hr; omega) (Nat.le_refl _)]
  rfl

theorem runScan_cons_none {m : List Nat → Option (List Nat × List Nat)}
    {c : Nat} {t : List Nat} (h : m (c :: t) = none) :
    runScan m (c :: t) = c :: runScan m t := by
  show scanSub m (t.length + 1) (c :: t) = c :: runScan m t
  show (match m (c :: t) with
        | some (out, r) => out ++ scanSub m t.length r
        | none => c :: scanSub m t.length t) = c :: runScan m t
  rw [h]
  rfl

theorem scanSubF_congr {m : List Nat → Option (Option (List Nat) × List Nat)}
    (hm : ShrinksF m) :
    ∀ f1 f2 s, s.length ≤ f1 → s.length ≤ f2 →
      scanSubF m f1 s = scanSubF m f2 s := by
  intro f1
  induction f1 with
  | zero =>
    intro f2 s h1 _
    have : s = [] := List.length_eq_zero.mp (by omega)
    subst this
    cases f2 <;> rfl
  | succ f ih =>
    intro f2 s h1 h2
    cases s with
    | nil => cases f2 <;> rfl
    | cons c t =>
      cases f2 with
      | zero => simp at h2
      | succ f2 =>
        show (match m (c :: t) with
              | some (some out, r) => (scanSubF m f r).map (fun rest => out ++ rest)
              | some (none, _) => none
              | none => (scanSubF m f t).map (fun rest => c :: rest))
            = (match m (c :: t) with
              | some (some out, r) => (scanSubF m f2 r).map (fun rest => out ++ rest)
              | some (none, _) => none
              | none => (scanSubF m f2 t).map (fun rest => c :: rest))
        have h1' : t.length + 1 ≤ f + 1 := by simpa using h1
        have h2' : t.length + 1 ≤ f2 + 1 := by simpa using h2
        cases hmatch : m (c :: t) with
        | some p =>
          obtain ⟨out, r⟩ := p
          have hr : r.length < t.length + 1 := by simpa using hm _ _ _ hmatch
          cases out with
          | some o =>
            simp only
            rw [ih f2 r (by omega) (by omega)]
          | none => simp only
        | none =>
          simp only
          rw [ih f2 t (by omega) (by omega)]

theorem runScanF_nil (m : List Nat → Option (Option (List Nat) × List Nat)) :
    runScanF m [] = some [] := rfl

theorem runScanF_cons_ok {m : List Nat → Option (Option (List Nat) × List Nat)}
    (hm : ShrinksF m) {c : Nat} {t out r : List Nat}
    (h : m (c :: t) = some (some out, r)) :
    runScanF m (c :: t) = (runScanF m r).map (fun rest => out ++ rest) := by
  have hr := hm _ _ _ h
  show scanSubF m (t.length + 1) (c :: t) = (runScanF m r).map (fun rest => out ++ rest)
  show (match m (c :: t) with
        | some (some out, r) => (scanSubF m t.length r).map (fun rest => out ++ rest)
        | some (none, _) => none
        | none => (scanSubF m t.length t).map (fun rest => c :: rest))
      = (runScanF m r).map (fun rest => out ++ rest)
  rw [h]
  simp only
  rw [scanSubF_congr hm t.length r.length r (by simp at hr; omega) (Nat.le_refl _)]
  rfl

theorem runScanF_cons_err {m : List Nat → Option (Option (List Nat) × List Nat)}
    {c : Nat} {t r : List Nat} (h : m (c :: t) = some (none, r)) :
    runScanF m (c :: t) = none := by
  show scanSubF m (t.length + 1) (c :: t) = none
  show (match m (c :: t) with
        | some (some out, r) => (scanSubF m t.length r).map (fun rest => out ++ rest)
        | some (none, _) => none
        | none => (scanSubF m t.length t).map (fun rest => c :: rest)) = none
  rw [h]

theorem runScanF_cons_none {m : List Nat → Option (Option (List Nat) × List Nat)}
    {c : Nat} {t : List Nat} (h : m (c :: t) = none) :
    runScanF m (c :: t) = (runScanF m t).map (fun rest => c :: rest) := by
  show scanSubF m (t.length + 1) (c :: t) = (runScanF m t).map (fun rest => c :: rest)
  show (match m (c :: t) with
        | some (some out, r) => (scanSubF m t.length r).map (fun rest => out ++ rest)
        | some (none, _) => none
        | none => (scanSubF m t.length t).map (fun rest => c :: rest))
      = (runScanF m t).map (fun rest => c :: rest)
  rw [h]
  rfl

theorem mUnesc_eq_some {s out r : List Nat} :
    mUnesc s = some (out, r) ↔
      ∃ ds : List Nat, s = [63, 91, 92, 117] ++ ds ++ 93 :: r ∧
        (∀ d ∈ ds, isDigitC d = true) ∧ 3 ≤ ds.length ∧ ds.length ≤ 5 ∧
        out = [digitsToNat ds] := by
  constructor
  · intro h
    unfold mUnesc at h
    cases hdp : dropPref [63, 91, 92, 117] s with
    | none => rw [hdp] at h; simp at h
    | some r4 =>
      rw [hdp] at h
      simp only [Option.some_bind] at h
      have hs : s = [63, 91, 92, 117] ++ r4 := dropPref_eq_some.mp hdp
      by_cases hcond : 3 ≤ (r4.takeWhile isDigitC).length ∧
          (r4.takeWhile isDigitC).length ≤ 5 ∧
          (r4.dropWhile isDigitC).head? = some 93
      · rw [if_pos hcond] at h
        obtain ⟨h3, h5, hh⟩ := hcond
        have hinj := Option.some.inj h
        have hout : out = [digitsToNat (r4.takeWhile isDigitC)] :=
          (congrArg Prod.fst hinj).symm
        have hr : r = (r4.dropWhile isDigitC).tail :=
          (congrArg Prod.snd hinj).symm
        have hsplit := List.takeWhile_append_dropWhile (p := isDigitC) (l := r4)
        have hdw : r4.dropWhile isDigitC = 93 :: r := by
          cases hdwe : r4.dropWhile isDigitC with
          | nil => rw [hdwe] at hh; simp at hh
          | cons x xs =>
            rw [hdwe] at hh hr
            simp at hh
            simp [hr, hh]
        refine ⟨r4.takeWhile isDigitC, ?_, ?_, h3, h5, hout⟩
        · have h4 : r4 = r4.takeWhile isDigitC ++ 93 :: r := by
            conv_lhs => rw [← hsplit]
            rw [hdw]
          rw [hs]
          exact congrArg (fun l => [63, 91, 92, 117] ++ l) h4
        · intro d hd
          exact List.mem_takeWhile_imp hd
      · rw [if_neg hcond] at h
        simp at h
  · rintro ⟨ds, hshape, hdig, h3, h5, hout⟩
    subst hshape hout
    have hdp : dropPref [63, 91, 92, 117] ([63, 91, 92, 117] ++ (ds ++ 93 :: r))
        = some (ds ++ 93 :: r) := dropPref_append _ _
    have hsw := takeWhile_eq_of_sandwich isDigitC ds 93 r hdig (by rfl)
    unfold mUnesc
    simp only [List.append_assoc] at hdp ⊢
    rw [hdp]
    simp only [Option.some_bind, hsw.1, hsw.2]
    rw [if_pos ⟨h3, h5, rfl⟩]
    rfl

theorem mUnesc_shrinks : Shrinks mUnesc := by
  intro s out r h
  obtain ⟨ds, hshape, -, -, -, -⟩ := mUnesc_eq_some.mp h
  subst hshape
  simp
  omega

/-- Characters emitted by `u_escape` for a non-ASCII code point are ASCII
and none of them is `?` except the leading one of the token. -/
theorem u_escape_shape {x t r : List Nat}
    (hx : ∀ a ∈ x, a ≤ 127 ∧ a ≠ 63) (h : u_escape t = x ++ r) :
    ∃ t', t = x ++ t' ∧ u_escape t' = r := by
  induction x generalizing t with
  | nil => exact ⟨t, rfl, h⟩
  | cons a x ih =>
    cases t with
    | nil => simp [u_escape] at h
    | cons d t2 =>
      by_cases hd : d ≤ 127
      · have hstep : u_escape (d :: t2) = d :: u_escape t2 := by
          simp [u_escape, hd]
        rw [hstep] at h
        have hda : d = a := by
          have := congrArg (fun l => l.headI) h
          simpa using this
        have htl : u_escape t2 = x ++ r := by
          have := congrArg List.tail h
          simpa using this
        obtain ⟨t', ht, hu⟩ := ih (fun b hb => hx b (by simp [hb])) htl
        exact ⟨t', by simp [hda, ht], hu⟩
      · have hstep : u_escape (d :: t2)
            = 63 :: ((([91, 92, 117] ++ decDigits d) ++ [93]) ++ u_escape t2) := by
          simp [u_escape, hd]
        rw [hstep] at h
        have : a = 63 := by
          have := congrArg (fun l => l.headI) h
          simpa using this.symm
        exact absurd this (hx a (by simp)).2

/-- C9 supporting fact: every character `u_escape` emits is ASCII. -/
theorem u_escape_all_ascii : ∀ s : List Nat, ∀ c ∈ u_escape s, c ≤ 127 := by
  intro s
  induction s with
  | nil => intro c hc; simp [u_escape] at hc
  | cons d t ih =>
    intro c hc
    by_cases hd : d ≤ 127
    · simp only [u_escape, hd, if_true, List.singleton_append, List.mem_cons] at hc
      rcases hc with rfl | hc
      · exact hd
      · exact ih c hc
    · have hrw : u_escape (d :: t)
          = [63, 91, 92, 117] ++ (decDigits d ++ ([93] ++ u_escape t)) := by
        simp [u_escape, hd]
      rw [hrw] at hc
      rcases List.mem_append.mp hc with h1 | h2
      · simp at h1
        omega
      · rcases List.mem_append.mp h2 with h3 | h4
        · exact digit_le_127 (decDigits_digits h3)
        · rcases List.mem_cons.mp h4 with h5 | h5
          · omega
          · exact ih c h5

theorem hasPatB_cons_false {c : Nat} {t : List Nat}
    (h : hasPatB (c :: t) = false) :
    (mUnesc (c :: t)).isSome = false ∧ hasPatB t = false := by
  simpa [hasPatB] using h

/-- C2 core: the legacy escape round-trips on strings whose code points
have at most five decimal digits and in which the escape pattern does not
already occur. -/
theorem u_unescape_u_escape :
    ∀ s : List Nat, (∀ c ∈ s, c < 100000) → hasPatB s = false →
      u_unescape (u_escape s) = s := by
  intro s
  induction s with
  | nil => intro _ _; rfl
  | cons c t ih =>
    intro h1 h2
    obtain ⟨hno, htail⟩ := hasPatB_cons_false h2
    have ihr := ih (fun x hx => h1 x (by simp [hx])) htail
    by_cases hc : c ≤ 127
    · have hstep : u_escape (c :: t) = c :: u_escape t := by simp [u_escape, hc]
      have hnone : mUnesc (c :: u_escape t) = none := by
        cases hm : mUnesc (c :: u_escape t) with
        | none => rfl
        | some p =>
          obtain ⟨out, r⟩ := p
          obtain ⟨ds, hshape, hdig, h3, h5, -⟩ := mUnesc_eq_some.mp hm
          -- the whole matched token must come from ASCII characters of t
          have hc63 : c = 63 := by
            have := congrArg (fun l => l.headI) hshape
            simpa using this
          have hrest : u_escape t = ([91, 92, 117] ++ ds ++ [93]) ++ r := by
            have := congrArg List.tail hshape
            simpa using this
          have hok : ∀ a ∈ [91, 92, 117] ++ ds ++ [93], a ≤ 127 ∧ a ≠ 63 := by
            intro a ha
            simp only [List.append_assoc, List.mem_append, List.mem_cons,
              List.mem_singleton, List.not_mem_nil] at ha
            rcases ha with ha | ha | ha
            · simp at ha
              rcases ha with rfl | rfl | rfl <;> omega
            · have := hdig a ha
              simp [isDigitC] at this
              omega
            · rcases ha with rfl | ha
              · omega
              · simp at ha
          obtain ⟨t', ht, -⟩ := u_escape_shape hok hrest
          have : mUnesc (c :: t) = some ([digitsToNat ds], t') := by
            apply mUnesc_eq_some.mpr
            refine ⟨ds, ?_, hdig, h3, h5, rfl⟩
            rw [hc63, ht]
            simp
          rw [this] at hno
          simp at hno
      unfold u_unescape
      rw [hstep, runScan_cons_none hnone]
      exact congrArg (fun x => c :: x) ihr
    · have hc1 : c < 100000 := h1 c (by simp)
      have hstep : u_escape (c :: t)
          = 63 :: ([91, 92, 117] ++ (decDigits c ++ 93 :: u_escape t)) := by
        simp [u_escape, hc]
      have hmatch : mUnesc (63 :: ([91, 92, 117] ++ (decDigits c ++ 93 :: u_escape t)))
          = some ([digitsToNat (decDigits c)], u_escape t) := by
        apply mUnesc_eq_some.mpr
        refine ⟨decDigits c, by simp, fun d hd => decDigits_digits hd, ?_, ?_, rfl⟩
        · exact decDigits_len_ge3 (by omega)
        · exact decDigits_len_le5 hc1
      have hsome := runScan_cons_some mUnesc_shrinks hmatch
      unfold u_unescape
      rw [hstep, hsome, decDigits_val]
      have : runScan mUnesc (u_escape t) = t := ihr
      rw [this]
      rfl

/-- C2 counterexample: the ASCII string `?[\u233]` is fixed by `u_escape`
(it is pure ASCII) but `u_unescape` rewrites it to the single code point
233, so the exact round-trip of the claim fails on it. -/
theorem claim_C2_counterexample :
    u_unescape (u_escape [63, 91, 92, 117, 50, 51, 51, 93])
      ≠ [63, 91, 92, 117, 50, 51, 51, 93] := by decide

/-- C2 (amended): `u_unescape (u_escape s) = s` for every string `s` whose
code points are below 100000 (at most five decimal digits, the upper bound
of the `\d{3,5}` unescape pattern) and in which the escape pattern
`?[\u<3-5 digits>]` does not already occur literally. -/
theorem claim_C2 :
    ∀ s : List Nat, (∀ c ∈ s, c < 100000) → hasPatB s = false →
      u_unescape (u_escape s) = s :=
  u_unescape_u_escape

/-- C2 witness: the round-trip theorem applied to the concrete string
"a", "ñ", "€" (code points 97, 241, 8364). -/
theorem claim_C2_witness :
    u_unescape (u_escape [97, 241, 8364]) = [97, 241, 8364] :=
  claim_C2 [97, 241, 8364] (by decide) (by decide)

/-- C9: every character of `u_escape s` is a code point at most 127. -/
theorem claim_C9 : ∀ s : List Nat, ∀ c ∈ u_escape s, c ≤ 127 :=
  u_escape_all_ascii

/-- C9 witness: applied to the concrete input [200] and its output
character 63 (`?`). -/
theorem claim_C9_witness : (63 : Nat) ≤ 127 :=
  claim_C9 [200] 63 (by decide)

theorem tail_dropWhile_lt {p : Nat → Bool} {r : List Nat} {x : Nat}
    (h : (r.dropWhile p).head? = some x) :
    ((r.dropWhile p).tail).length < r.length := by
  cases hdw : r.dropWhile p with
  | nil => rw [hdw] at h; simp at h
  | cons a t =>
    have hle : (r.dropWhile p).length ≤ r.length := length_dropWhileLe p r
    rw [hdw] at hle
    simp only [hdw, List.tail_cons]
    simp at hle
    omega

theorem numCore_rest_lt {r rest : List Nat} {out : Option (List Nat)}
    (h : numCore r = some (out, rest)) : rest.length < r.length := by
  unfold numCore at h
  by_cases he : (r.takeWhile isDigitC).isEmpty
  · rw [if_pos he] at h; simp at h
  · rw [if_neg he] at h
    by_cases hh : (r.dropWhile isDigitC).head? = some 59
    · rw [if_pos hh] at h
      have hrest : rest = (r.dropWhile isDigitC).tail :=
        (congrArg Prod.snd (Option.some.inj h)).symm
      rw [hrest]
      exact tail_dropWhile_lt hh
    · rw [if_neg hh] at h; simp at h

theorem numCoreBr_rest_lt {r rest : List Nat} {out : Option (List Nat)}
    (h : numCoreBr r = some (out, rest)) : rest.length < r.length := by
  unfold numCoreBr at h
  by_cases he : (r.takeWhile isDigitC).isEmpty
  · rw [if_pos he] at h; simp at h
  · rw [if_neg he] at h
    by_cases hh : (r.dropWhile isDigitC).head? = some 93
    · rw [if_pos hh] at h
      have hrest : rest = (r.dropWhile isDigitC).tail :=
        (congrArg Prod.snd (Option.some.inj h)).symm
      rw [hrest]
      exact tail_dropWhile_lt hh
    · rw [if_neg hh] at h; simp at h

theorem mNum1_shrinks : ShrinksF mNum1 := by
  intro s out r h
  unfold mNum1 at h
  cases h1 : dropPref [92, 38, 35] s with
  | some r1 =>
    rw [h1] at h
    have ha := numCore_rest_lt h
    have hb := dropPref_length h1
    simp at hb
    omega
  | none =>
    rw [h1] at h
    cases h2 : dropPref [38, 35] s with
    | some r2 =>
      rw [h2] at h
      have ha := numCore_rest_lt h
      have hb := dropPref_length h2
      simp at hb
      omega
    | none => rw [h2] at h; simp at h

theorem mNum2_shrinks : ShrinksF mNum2 := by
  intro s out r h
  unfold mNum2 at h
  cases h1 : dropPref [63, 91, 92, 117] s with
  | none => rw [h1] at h; simp at h
  | some r0 =>
    rw [h1] at h
    have h2 : numCoreBr (r0.dropWhile isSpace) = some (out, r) := h
    have ha := numCoreBr_rest_lt h2
    have hb := dropPref_length h1
    have hdwlen : (r0.dropWhile isSpace).length ≤ r0.length := length_dropWhileLe _ _
    simp at hb
    omega

/-! ### Claims about the decode pipeline -/

/-- C1 counterexample: `\~qe` decodes to q + COMBINING TILDE + e; encoding
that puts `\~` next to the literal `e`, and decoding again matches the
longer registered spelling `\~e` (LATIN SMALL LETTER E WITH TILDE), so
`decode(encode(decode(s)))` differs from `decode(s)`. -/
theorem claim_C1_counterexample :
    ulatex_decode (codes "\\~qe") = some [113, 771, 101] ∧
    ulatex_decode (encode_to_latex [113, 771, 101]) = some [113, 7869] ∧
    ([113, 7869] : List Nat) ≠ [113, 771, 101] :=
  ⟨by decide, by decide, by decide⟩

set_option maxRecDepth 8192 in
/-- C1 (amended): round-trip stability of the decoded form holds for the
canonical spelling of every single table entry; it fails for general
command strings because re-encoding can juxtapose a combining-mark
command with a following letter, forming a longer registered spelling
that decodes differently. -/
theorem claim_C1 :
    ∀ e ∈ LATEX_TABLE, rtStableB (canonicalSpelling e) = true := by decide

/-- C1 witness: stability at the entry for LATIN SMALL LETTER A WITH
OGONEK, whose canonical spelling is `\c{a}`. -/
theorem claim_C1_witness :
    rtStableB (canonicalSpelling
      (codes "LATIN SMALL LETTER A WITH OGONEK", 0x105, [codes "\\c{a}"])) = true :=
  claim_C1 _ (by decide)

/-- C3 counterexample: the input e + U+0301 COMBINING ACUTE ACCENT — the
very example of the claim — does NOT raise: NFC composes it to é before
the combining-mark check runs, and decoding returns é. -/
theorem claim_C3_counterexample :
    is_combining 769 = true ∧ ulatex_decode [101, 769] = some [233] :=
  ⟨by decide, by decide⟩

/-- C3 (amended): decoding fails in exactly two cases — the `ValueError`
of `ulatex_preprocess`, raised when and only when the NFC-normalized
input still contains a standalone combining mark (a mark that NFC
composes with its base, such as U+0301 after "e", does not trigger it),
and the `ValueError` that `unichr` raises inside numeric character
reference resolution when a matched reference's value is at or above
0x110000 (second conjunct: the pure-ASCII `&#1114112;`, which contains no
combining mark, also makes decoding fail).  No other stage raises. -/
theorem claim_C3 :
    (∀ s : List Nat, ulatex_decode s = none ↔
      ((nfc s).any is_combining = true ∨
        numrefSub (reorderCombining (bracesSub (ulatexSub (nfc s)))) = none)) ∧
    ulatex_decode (codes "&#1114112;") = none ∧
    (codes "&#1114112;").any is_combining = false := by
  refine ⟨?_, by decide, by decide⟩
  intro s
  unfold ulatex_decode ulatex_preprocess ulatex_postprocess
  by_cases h : (nfc s).any is_combining = true
  · simp [h]
  · simp only [h, Bool.false_eq_true, if_false, Option.some_bind, false_or]
    cases hnum : numrefSub (reorderCombining (bracesSub (ulatexSub (nfc s)))) with
    | none => simp [hnum]
    | some v => simp [hnum]

theorem reorderAux_cons (comb : List Nat) (c : Nat) (t : List Nat) :
    reorderAux comb (c :: t) =
      if is_combining c then reorderAux (c :: comb) t
      else c :: (comb ++ reorderAux [] t) := rfl

theorem reorderAux_marks_base (marks : List Nat) :
    ∀ comb : List Nat, ∀ base : Nat, is_combining base = false →
      (∀ m ∈ marks, is_combining m = true) →
      reorderAux comb (marks ++ [base]) = base :: (marks.reverse ++ comb) := by
  induction marks with
  | nil =>
    intro comb base hb _
    rw [List.nil_append, reorderAux_cons, if_neg (by simp [hb])]
    simp [reorderAux]
  | cons m ms ih =>
    intro comb base hb hm
    have hmc : is_combining m = true := hm m (by simp)
    rw [List.cons_append, reorderAux_cons, if_pos hmc,
      ih (m :: comb) base hb (fun x hx => hm x (by simp [hx]))]
    simp

/-- C4 counterexample: decoding `\'\^q` (acute command, then circumflex
command, then the base letter q) yields q followed by the marks in
REVERSED order (circumflex U+0302 first, acute U+0301 last), not in the
order the commands were applied. -/
theorem claim_C4_counterexample :
    ulatex_decode (codes "\\'\\^q") = some [113, 770, 769] ∧
    ([113, 770, 769] : List Nat) ≠ [113, 769, 770] :=
  ⟨by decide, by decide⟩

/-- C4 (amended): the reordering pass buffers the pending combining marks
on a stack and pops them after the base character, so a run of marks
before a base letter is emitted after it in REVERSE of its textual
order. -/
theorem claim_C4 :
    ∀ (base : Nat) (marks : List Nat), is_combining base = false →
      (∀ m ∈ marks, is_combining m = true) →
      reorderCombining (marks ++ [base]) = base :: marks.reverse := by
  intro base marks hb hm
  have := reorderAux_marks_base marks [] base hb hm
  simpa [reorderCombining] using this

/-- C4 witness: the amended theorem at acute + circumflex + q. -/
theorem claim_C4_witness :
    reorderCombining ([769, 770] ++ [113]) = 113 :: [769, 770].reverse :=
  claim_C4 113 [769, 770] (by decide) (by decide)

/-- C5 counterexample: `&#92;relax x` decodes to `x`, not to `\relax x`:
the `\relax` token materialized by resolving the numeric reference IS
stripped, contradicting the claimed stage order. -/
theorem claim_C5_counterexample :
    ulatex_postprocess (codes "&#92;relax x") ≠ some (codes "\\relax x") := by decide

/-- C5 (amended): in `ulatex_postprocess` command stripping runs AFTER
numeric character reference resolution (the code order is: argument
unwrapping, brace removal, mark reordering, numeric references, command
stripping, language tags, NFC), so a command token that only comes into
existence by resolving a numeric reference IS stripped — under both
reference formats. -/
theorem claim_C5 :
    ulatex_postprocess (codes "&#92;relax x") = some (codes "x") ∧
    ulatex_postprocess (codes "?[\\u92]cite y") = some (codes "y") :=
  ⟨by decide, by decide⟩

theorem mNum1_at_ref {ds : List Nat} (hne : ds ≠ [])
    (hds : ∀ d ∈ ds, isDigitC d = true) :
    mNum1 ([38, 35] ++ ds ++ [59]) = some (unichrRepl (digitsToNat ds), []) := by
  have hsw59 := takeWhile_eq_of_sandwich isDigitC ds 59 [] hds (by decide)
  have hemp : ds.isEmpty = false := by
    cases ds with
    | nil => exact absurd rfl hne
    | cons d t => rfl
  have hcore : numCore (ds ++ [59]) = some (unichrRepl (digitsToNat ds), []) := by
    unfold numCore
    rw [show ds ++ [59] = ds ++ 59 :: [] from rfl, hsw59.1, hsw59.2, hemp]
    simp
  have h1 : dropPref [92, 38, 35] ([38, 35] ++ ds ++ [59]) = none := by
    cases hd : dropPref [92, 38, 35] ([38, 35] ++ ds ++ [59]) with
    | none => rfl
    | some r =>
      have hshape := dropPref_eq_some.mp hd
      have h0 := congrArg (fun l => l.headI) hshape
      simp at h0
  have h2 : dropPref [38, 35] ([38, 35] ++ ds ++ [59]) = some (ds ++ [59]) := by
    rw [List.append_assoc]
    exact dropPref_append [38, 35] (ds ++ [59])
  unfold mNum1
  rw [h1, h2]
  exact hcore

theorem mNum2_at_ref {ds : List Nat} (hne : ds ≠ [])
    (hds : ∀ d ∈ ds, isDigitC d = true) :
    mNum2 ([63, 91, 92, 117] ++ ds ++ [93]) = some (unichrRepl (digitsToNat ds), []) := by
  have hsw93 := takeWhile_eq_of_sandwich isDigitC ds 93 [] hds (by decide)
  have hemp : ds.isEmpty = false := by
    cases ds with
    | nil => exact absurd rfl hne
    | cons d t => rfl
  have hnospace : (ds ++ [93]).dropWhile isSpace = ds ++ [93] := by
    cases ds with
    | nil => exact absurd rfl hne
    | cons d t =>
      have hd : isDigitC d = true := hds d (by simp)
      have hns : isSpace d = false := by
        simp [isDigitC] at hd
        simp [isSpace]
        omega
      simp [List.dropWhile_cons, hns]
  have hcore : numCoreBr ((ds ++ [93]).dropWhile isSpace)
      = some (unichrRepl (digitsToNat ds), []) := by
    rw [hnospace]
    unfold numCoreBr
    rw [show ds ++ [93] = ds ++ 93 :: [] from rfl, hsw93.1, hsw93.2, hemp]
    simp
  have h2 : dropPref [63, 91, 92, 117] ([63, 91, 92, 117] ++ ds ++ [93])
      = some (ds ++ [93]) := by
    rw [List.append_assoc]
    exact dropPref_append [63, 91, 92, 117] (ds ++ [93])
  unfold mNum2
  rw [h2]
  exact hcore

/-- C7 counterexample: at DEC = 1114112, one above the Unicode code-point
ceiling, neither reference format resolves to a literal code point —
`unichr` raises `ValueError` and decoding fails — so the claim does not
hold for every DEC. -/
theorem claim_C7_counterexample :
    ulatex_decode (codes "&#1114112;") ≠ some [1114112] ∧
    ulatex_decode (codes "&#1114112;") = none ∧
    ulatex_decode (codes "?[\\u1114112]") = none :=
  ⟨by decide, by decide, by decide⟩

/-- C7 (amended): both legacy numeric character reference formats resolve
to the literal code point with the matched decimal value when that value
is below 0x110000, and make the decode raise (the `ValueError` of
`unichr`) when it is not; in particular `&#233;` and `?[\u233]` both
decode to é (U+00E9). -/
theorem claim_C7 :
    (∀ ds : List Nat, ds ≠ [] → (∀ d ∈ ds, isDigitC d = true) →
      (digitsToNat ds < 0x110000 →
        runScanF mNum1 ([38, 35] ++ ds ++ [59]) = some [digitsToNat ds] ∧
        runScanF mNum2 ([63, 91, 92, 117] ++ ds ++ [93]) = some [digitsToNat ds]) ∧
      (0x110000 ≤ digitsToNat ds →
        runScanF mNum1 ([38, 35] ++ ds ++ [59]) = none ∧
        runScanF mNum2 ([63, 91, 92, 117] ++ ds ++ [93]) = none)) ∧
    ulatex_postprocess (codes "&#233;") = some (codes "é") ∧
    ulatex_postprocess (codes "?[\\u233]") = some (codes "é") := by
  refine ⟨?_, by decide, by decide⟩
  intro ds hne hds
  have hm1 := mNum1_at_ref hne hds
  have hm2 := mNum2_at_ref hne hds
  have hshape1 : ([38, 35] ++ ds ++ [59] : List Nat)
      = 38 :: (35 :: (ds ++ [59])) := by simp
  have hshape2 : ([63, 91, 92, 117] ++ ds ++ [93] : List Nat)
      = 63 :: (91 :: (92 :: (117 :: (ds ++ [93])))) := by simp
  constructor
  · intro hlt
    have hrepl : unichrRepl (digitsToNat ds) = some [digitsToNat ds] := by
      unfold unichrRepl
      rw [if_pos hlt]
    constructor
    · rw [hshape1, runScanF_cons_ok mNum1_shrinks
        (by rw [← hshape1, hm1, hrepl]), runScanF_nil]
      rfl
    · rw [hshape2, runScanF_cons_ok mNum2_shrinks
        (by rw [← hshape2, hm2, hrepl]), runScanF_nil]
      rfl
  · intro hge
    have hrepl : unichrRepl (digitsToNat ds) = none := by
      unfold unichrRepl
      rw [if_neg (by omega)]
    constructor
    · rw [hshape1]
      exact runScanF_cons_err (by rw [← hshape1, hm1, hrepl])
    · rw [hshape2]
      exact runScanF_cons_err (by rw [← hshape2, hm2, hrepl])

/-- C7 witness: the general conjunct applied to the digit string "233",
whose value is below the ceiling. -/
theorem claim_C7_witness :
    runScanF mNum1 ([38, 35] ++ [50, 51, 51] ++ [59]) = some [digitsToNat [50, 51, 51]] ∧
    runScanF mNum2 ([63, 91, 92, 117] ++ [50, 51, 51] ++ [93])
      = some [digitsToNat [50, 51, 51]] :=
  (claim_C7.1 [50, 51, 51] (by decide) (by decide)).1 (by decide)

theorem reorderAux_all_marks (marks : List Nat)
    (hm : ∀ m ∈ marks, is_combining m = true) :
    ∀ comb : List Nat, reorderAux comb marks = [] := by
  induction marks with
  | nil => intro comb; rfl
  | cons m ms ih =>
    intro comb
    have hmc : is_combining m = true := hm m (by simp)
    simp only [reorderAux, hmc, if_true]
    exact ih (fun x hx => hm x (by simp [hx])) _

theorem reorderAux_append_marks (marks : List Nat)
    (hm : ∀ m ∈ marks, is_combining m = true) :
    ∀ (s comb : List Nat), reorderAux comb (s ++ marks) = reorderAux comb s := by
  intro s
  induction s with
  | nil =>
    intro comb
    rw [List.nil_append, reorderAux_all_marks marks hm comb]
    rfl
  | cons c t ih =>
    intro comb
    rw [List.cons_append, reorderAux_cons, reorderAux_cons]
    by_cases hc : is_combining c
    · rw [if_pos hc, if_pos hc, ih]
    · rw [if_neg hc, if_neg hc, ih []]

/-- C10: trailing combining marks with no following base character are
silently dropped by the reordering pass — the output is the same as if
they were not there at all. -/
theorem claim_C10 :
    ∀ (s marks : List Nat), marks ≠ [] →
      (∀ m ∈ marks, is_combining m = true) →
      reorderCombining (s ++ marks) = reorderCombining s := by
  intro s marks _ hm
  exact reorderAux_append_marks marks hm s []

/-- C10 witness: a trailing acute accent after "q" is dropped. -/
theorem claim_C10_witness :
    reorderCombining ([113] ++ [769]) = reorderCombining [113] :=
  claim_C10 [113] [769] (by decide) (by decide)

/-! ### Language-tag rewriting (C8) -/

theorem dropPref_none_extend :
    ∀ (p xs post : List Nat) (c : Nat), c ∉ p →
      dropPref p (xs ++ [c]) = none → dropPref p (xs ++ c :: post) = none := by
  intro p
  induction p with
  | nil => intro xs post c _ h; simp [dropPref] at h
  | cons a p ih =>
    intro xs post c hc h
    cases xs with
    | nil =>
      simp only [List.nil_append] at h ⊢
      have hca : c ≠ a := fun he => hc (he ▸ List.mem_cons_self a p)
      simp [dropPref, hca]
    | cons x xs =>
      simp only [List.cons_append] at h ⊢
      by_cases hxa : x = a
      · subst hxa
        simp only [dropPref, if_pos rfl] at h ⊢
        exact ih xs post c (fun hm => hc (List.mem_cons_of_mem _ hm)) h
      · simp [dropPref, hxa]

theorem langTry_rest_le {tag code : String} {s : List Nat} {cd : String}
    {r : List Nat} (h : langTry tag code s = some (cd, r)) : r.length ≤ s.length := by
  unfold langTry at h
  cases hdp : dropPref (codes tag) s with
  | none => rw [hdp] at h; simp at h
  | some r1 =>
    rw [hdp] at h
    simp only [Option.some_bind] at h
    by_cases hsp : r1.head?.any isSpace
    · rw [if_pos hsp] at h
      have hr : r1 = r := congrArg Prod.snd (Option.some.inj h)
      subst hr
      have := dropPref_length hdp
      omega
    · rw [if_neg hsp] at h
      simp at h

theorem langFind_rest_le :
    ∀ (tbl : List (String × String)) (s : List Nat) (cd : String) (r : List Nat),
      langFind tbl s = some (cd, r) → r.length ≤ s.length := by
  intro tbl
  induction tbl with
  | nil => intro s cd r h; simp [langFind] at h
  | cons hd tl ih =>
    intro s cd r h
    obtain ⟨tag, code⟩ := hd
    unfold langFind at h
    cases htry : langTry tag code s with
    | some p =>
      rw [htry] at h
      obtain ⟨c1, r1⟩ := p
      have h2 : (some (c1, r1) : Option (String × List Nat)) = some (cd, r) := h
      have : r1 = r := congrArg Prod.snd (Option.some.inj h2)
      exact this ▸ langTry_rest_le htry
    | none =>
      rw [htry] at h
      have h2 : langFind tl s = some (cd, r) := h
      exact ih _ _ _ h2

theorem mLang_shrinks : Shrinks mLang := by
  intro s out r h
  unfold mLang at h
  by_cases hh : s.head? = some 92
  · rw [if_pos hh] at h
    cases hlf : langFind language_tags s.tail with
    | none => rw [hlf] at h; simp at h
    | some p =>
      rw [hlf] at h
      obtain ⟨cd, r1⟩ := p
      have h3 : (some (codes ("[" ++ cd ++ "] "), r1.dropWhile isSpace)
          : Option (List Nat × List Nat)) = some (out, r) := h
      have hr : r = r1.dropWhile isSpace := (congrArg Prod.snd (Option.some.inj h3)).symm
      have hrlen : r.length = (r1.dropWhile isSpace).length := congrArg List.length hr
      have h1 : r1.length ≤ s.tail.length := langFind_rest_le _ _ _ _ hlf
      have h2 : (r1.dropWhile isSpace).length ≤ r1.length := length_dropWhileLe _ _
      cases s with
      | nil => simp at hh
      | cons c t =>
        simp only [List.tail_cons] at h1
        simp only [List.length_cons]
        omega
  · rw [if_neg hh] at h
    simp at h

theorem langFind_spec :
    ∀ (tbl : List (String × String)) (tag code : String) (post : List Nat),
      (tag, code) ∈ tbl →
      (tbl.map Prod.fst).Nodup →
      (∀ p ∈ tbl, p.1 ≠ tag → dropPref (codes p.1) (codes tag ++ [32]) = none) →
      (∀ p ∈ tbl, (32 : Nat) ∉ codes p.1) →
      langFind tbl (codes tag ++ 32 :: post) = some (code, 32 :: post) := by
  intro tbl
  induction tbl with
  | nil => intro tag code post hmem _ _ _; simp at hmem
  | cons hd tl ih =>
    intro tag code post hmem hnodup hnone hns
    obtain ⟨t1, c1⟩ := hd
    by_cases heq : t1 = tag
    · subst heq
      have hcc : c1 = code := by
        rcases List.mem_cons.mp hmem with h | h
        · exact (congrArg Prod.snd h).symm
        · exfalso
          have h1 : t1 ∈ tl.map Prod.fst :=
            List.mem_map.mpr ⟨(t1, code), h, rfl⟩
          have h2 : t1 ∉ tl.map Prod.fst := by
            have := hnodup
            simp only [List.map_cons, List.nodup_cons] at this
            exact this.1
          exact h2 h1
      subst hcc
      show (langTry t1 c1 (codes t1 ++ 32 :: post)).or _ = _
      unfold langTry
      rw [dropPref_append]
      rfl
    · have h1 : dropPref (codes t1) (codes tag ++ [32]) = none :=
        hnone (t1, c1) (by simp) heq
      have h2 : (32 : Nat) ∉ codes t1 := hns (t1, c1) (by simp)
      have hext : dropPref (codes t1) (codes tag ++ 32 :: post) = none :=
        dropPref_none_extend (codes t1) (codes tag) post 32 h2 h1
      have hmem1 : (tag, code) ∈ tl := by
        rcases List.mem_cons.mp hmem with h | h
        · exact absurd (congrArg Prod.fst h).symm heq
        · exact h
      have hskip : langFind ((t1, c1) :: tl) (codes tag ++ 32 :: post)
          = langFind tl (codes tag ++ 32 :: post) := by
        show (langTry t1 c1 _).or _ = _
        unfold langTry
        rw [hext]
        rfl
      rw [hskip]
      refine ih tag code post hmem1 ?_ ?_ ?_
      · have := hnodup
        simp only [List.map_cons, List.nodup_cons] at this
        exact this.2
      · exact fun p hp => hnone p (List.mem_cons_of_mem _ hp)
      · exact fun p hp => hns p (List.mem_cons_of_mem _ hp)

/-- C8: a backslash followed by a key of the language-tag table and
whitespace is rewritten to the bracketed 3-letter code and a single
space; the greedy `\s+` swallows any further whitespace before the rest
of the string, which is then processed recursively. -/
theorem claim_C8 :
    ∀ (tag code : String) (post : List Nat), (tag, code) ∈ language_tags →
      recode_language_tags (92 :: (codes tag ++ 32 :: post)) =
        codes ("[" ++ code ++ "] ") ++ recode_language_tags (post.dropWhile isSpace) := by
  intro tag code post hmem
  have hall : ∀ q ∈ language_tags, ∀ p ∈ language_tags,
      p.1 ≠ q.1 → dropPref (codes p.1) (codes q.1 ++ [32]) = none := by decide
  have hns : ∀ p ∈ language_tags, (32 : Nat) ∉ codes p.1 := by decide
  have hnodup : (language_tags.map Prod.fst).Nodup := by decide
  have hfind : langFind language_tags (codes tag ++ 32 :: post) = some (code, 32 :: post) :=
    langFind_spec language_tags tag code post hmem hnodup
      (fun p hp hne => hall (tag, code) hmem p hp hne) hns
  have hmatch : mLang (92 :: (codes tag ++ 32 :: post)) =
      some (codes ("[" ++ code ++ "] "), (32 :: post).dropWhile isSpace) := by
    unfold mLang
    simp only [List.head?_cons, List.tail_cons]
    rw [if_pos trivial, hfind]
    rfl
  have hdw : (32 :: post).dropWhile isSpace = post.dropWhile isSpace := by
    simp [List.dropWhile_cons, isSpace]
  unfold recode_language_tags
  rw [runScan_cons_some mLang_shrinks hmatch, hdw]

/-- C8 witness: `\latin foo` becomes `[lat] foo`. -/
theorem claim_C8_witness :
    recode_language_tags (92 :: (codes "latin" ++ 32 :: codes "foo")) =
      codes ("[" ++ "lat" ++ "] ") ++ recode_language_tags ((codes "foo").dropWhile isSpace) :=
  claim_C8 "latin" "lat" (codes "foo") (by decide)

/-! ### Registration order and last-write-wins (C6) -/

theorem lexLe_refl : ∀ a : List Nat, lexLe a a = true := by
  intro a
  induction a with
  | nil => rfl
  | cons x xs ih => simp [lexLe, ih]

theorem lexLe_total : ∀ a b : List Nat, lexLe a b = true ∨ lexLe b a = true := by
  intro a
  induction a with
  | nil => intro b; left; rfl
  | cons x xs ih =>
    intro b
    cases b with
    | nil => right; rfl
    | cons y ys =>
      by_cases hxy : x < y
      · left; simp [lexLe, hxy]
      · by_cases hyx : y < x
        · right; simp [lexLe, hyx]
        · have hx : x = y := by omega
          subst hx
          rcases ih ys with h | h
          · left; simp [lexLe, h]
          · right; simp [lexLe, h]

theorem lexLe_trans :
    ∀ a b c : List Nat, lexLe a b = true → lexLe b c = true → lexLe a c = true := by
  intro a
  induction a with
  | nil => intro b c _ _; rfl
  | cons x xs ih =>
    intro b c hab hbc
    cases b with
    | nil => simp [lexLe] at hab
    | cons y ys =>
      cases c with
      | nil => simp [lexLe] at hbc
      | cons z zs =>
        simp only [lexLe] at hab hbc ⊢
        by_cases hxy : x < y
        · by_cases hyz : y < z
          · simp [show x < z by omega]
          · by_cases hzy : z < y
            · simp [hyz, hzy] at hbc
            · have hyz2 : y = z := by omega
              subst hyz2
              simp [hxy]
        · by_cases hyx : y < x
          · simp [hxy, hyx] at hab
          · have hx : x = y := by omega
            subst hx
            simp only [lt_self_iff_false, if_false] at hab
            by_cases hxz : x < z
            · simp [hxz]
            · by_cases hzx : z < x
              · simp [hxz, hzx] at hbc
              · have hz : x = z := by omega
                subst hz
                simp only [lt_self_iff_false, if_false] at hbc ⊢
                exact ih ys zs hab hbc

theorem lexLt_spec {a b : List Nat} (h : lexLt a b = true) :
    lexLe a b = true ∧ lexLe b a = false := by
  unfold lexLt at h
  constructor
  · exact (Bool.and_eq_true_iff.mp h).1
  · have := (Bool.and_eq_true_iff.mp h).2
    simpa using this

theorem insertDesc_cons_le {e h : Entry} {t : List Entry}
    (hc : lexLe e.1 h.1 = true) :
    insertDesc e (h :: t) = h :: insertDesc e t := by
  simp [insertDesc, hc]

theorem insertDesc_cons_gt {e h : Entry} {t : List Entry}
    (hc : ¬ lexLe e.1 h.1 = true) :
    insertDesc e (h :: t) = e :: h :: t := by
  rw [Bool.not_eq_true] at hc
  simp [insertDesc, hc]

theorem mem_insertDesc {e x : Entry} {l : List Entry} :
    x ∈ insertDesc e l ↔ x = e ∨ x ∈ l := by
  induction l with
  | nil => simp [insertDesc]
  | cons h t ih =>
    by_cases hc : lexLe e.1 h.1
    · rw [insertDesc_cons_le hc]
      simp only [List.mem_cons, ih]
      tauto
    · rw [insertDesc_cons_gt hc]
      simp only [List.mem_cons]

theorem sorted_insertDesc {e : Entry} {l : List Entry}
    (hs : l.Pairwise (fun a b => lexLe b.1 a.1 = true)) :
    (insertDesc e l).Pairwise (fun a b => lexLe b.1 a.1 = true) := by
  induction l with
  | nil => simp [insertDesc]
  | cons h t ih =>
    rcases List.pairwise_cons.mp hs with ⟨hh, ht⟩
    by_cases hc : lexLe e.1 h.1
    · rw [insertDesc_cons_le hc]
      apply List.pairwise_cons.mpr
      refine ⟨?_, ih ht⟩
      intro x hx
      rcases mem_insertDesc.mp hx with rfl | hx
      · exact hc
      · exact hh x hx
    · rw [insertDesc_cons_gt hc]
      have hle : lexLe h.1 e.1 = true := by
        rcases lexLe_total e.1 h.1 with h1 | h1
        · exact absurd h1 hc
        · exact h1
      apply List.pairwise_cons.mpr
      refine ⟨?_, hs⟩
      intro x hx
      rcases List.mem_cons.mp hx with rfl | hx
      · exact hle
      · exact lexLe_trans x.1 h.1 e.1 (hh x hx) hle

theorem mem_sortRev {x : Entry} {t : List Entry} : x ∈ sortRevByName t ↔ x ∈ t := by
  induction t with
  | nil => simp [sortRevByName]
  | cons h ttl ih =>
    show x ∈ insertDesc h (sortRevByName ttl) ↔ _
    rw [mem_insertDesc, ih]
    exact (List.mem_cons).symm

theorem sorted_sortRev (t : List Entry) :
    (sortRevByName t).Pairwise (fun a b => lexLe b.1 a.1 = true) := by
  induction t with
  | nil => simp [sortRevByName]
  | cons h ttl ih => exact sorted_insertDesc ih

theorem invLookup_cons (sp : List Nat) (cp : Nat) (m : List (List Nat × Nat))
    (l : List Nat) :
    invLookup ((sp, cp) :: m) l = if sp = l then some cp else invLookup m l := by
  by_cases hsl : sp = l
  · subst hsl
    simp [invLookup, List.find?_cons_of_pos]
  · unfold invLookup
    rw [List.find?_cons_of_neg _ (by simpa using hsl), if_neg hsl]

theorem invLookup_regSpells :
    ∀ (sps : List (List Nat)) (cp : Nat) (m : List (List Nat × Nat)) (l : List Nat),
      invLookup (sps.foldl (fun m sp => (sp, cp) :: m) m) l =
        if l ∈ sps then some cp else invLookup m l := by
  intro sps
  induction sps with
  | nil => intro cp m l; simp
  | cons sp ss ih =>
    intro cp m l
    rw [List.foldl_cons, ih, invLookup_cons]
    by_cases hl : l ∈ ss
    · simp [hl]
    · by_cases hsl : sp = l
      · subst hsl
        simp [hl]
      · simp only [hl, if_false, if_neg hsl]
        have : l ∉ sp :: ss := by
          simp [List.mem_cons, hl]
          exact fun he => hsl he.symm
        rw [if_neg this]

theorem invLookup_registerEntry (m : List (List Nat × Nat)) (e : Entry)
    (l : List Nat) :
    invLookup (registerEntry m e) l =
      if l ∈ e.2.2 then some e.2.1 else invLookup m l :=
  invLookup_regSpells e.2.2 e.2.1 m l

theorem invLookup_buildInv_aux :
    ∀ (es : List Entry) (m : List (List Nat × Nat)) (l : List Nat),
      invLookup (es.foldl registerEntry m) l =
        (es.reverse.find? (fun e => decide (l ∈ e.2.2))).elim (invLookup m l)
          (fun e => some e.2.1) := by
  intro es
  induction es with
  | nil => intro m l; simp
  | cons e es ih =>
    intro m l
    rw [List.foldl_cons, ih, List.reverse_cons, List.find?_append]
    cases hf : es.reverse.find? (fun e => decide (l ∈ e.2.2)) with
    | some e1 => rfl
    | none =>
      show invLookup (registerEntry m e) l
          = (List.find? (fun e => decide (l ∈ e.2.2)) [e]).elim (invLookup m l)
            (fun e => some e.2.1)
      rw [invLookup_registerEntry]
      by_cases hP : l ∈ e.2.2
      · rw [if_pos hP, List.find?_cons_of_pos _ (by simpa using hP)]
        rfl
      · rw [if_neg hP, List.find?_cons_of_neg _ (by simpa using hP)]
        rfl

theorem find_sorted :
    ∀ (L : List Entry) (e1 e2 : Entry) (l : List Nat),
      L.Pairwise (fun a b => lexLe a.1 b.1 = true) →
      e1 ∈ L → e2 ∈ L → lexLt e1.1 e2.1 = true →
      l ∈ e1.2.2 → l ∈ e2.2.2 →
      (∀ e ∈ L, l ∈ e.2.2 → e = e1 ∨ e = e2) →
      L.find? (fun e => decide (l ∈ e.2.2)) = some e1 := by
  intro L
  induction L with
  | nil => intro e1 e2 l _ h1 _ _ _ _ _; simp at h1
  | cons h t ih =>
    intro e1 e2 l hsort h1 h2 hlt hl1 hl2 honly
    have hne : e1 ≠ e2 := by
      intro he
      have := lexLt_spec hlt
      rw [he] at this
      rw [lexLe_refl] at this
      exact absurd this.2 (by simp [this.1])
    rcases List.pairwise_cons.mp hsort with ⟨hh, ht⟩
    by_cases hP : l ∈ h.2.2
    · rcases honly h (by simp) hP with rfl | rfl
      · exact List.find?_cons_of_pos _ (by simpa using hP)
      · exfalso
        have he1t : e1 ∈ t := by
          rcases List.mem_cons.mp h1 with h1e | h1t
          · exact absurd h1e hne
          · exact h1t
        have hle : lexLe h.1 e1.1 = true := hh e1 he1t
        exact absurd hle (by simp [(lexLt_spec hlt).2])
    · have hne1 : h ≠ e1 := fun he => hP (he ▸ hl1)
      have hne2 : h ≠ e2 := fun he => hP (he ▸ hl2)
      rw [List.find?_cons_of_neg _ (by simpa using hP)]
      refine ih e1 e2 l ht ?_ ?_ hlt hl1 hl2 ?_
      · rcases List.mem_cons.mp h1 with h1e | h1t
        · exact absurd h1e.symm hne1
        · exact h1t
      · rcases List.mem_cons.mp h2 with h2e | h2t
        · exact absurd h2e.symm hne2
        · exact h2t
      · exact fun e he => honly e (List.mem_cons_of_mem _ he)

/-- C6: the registration loop processes the override entries in reverse
lexicographic order by Unicode name (first conjunct: the registration
list is sorted descending), and when two code points list the same LaTeX
spelling the registration performed later — the entry whose name is
earlier in lexicographic order — wins the inverse-mapping slot (second
conjunct, for any table). -/
theorem claim_C6 :
    registrationList.Pairwise (fun a b : Entry => lexLe b.1 a.1 = true) ∧
    (∀ (t : List Entry) (e1 e2 : Entry) (l : List Nat),
      e1 ∈ t → e2 ∈ t → lexLt e1.1 e2.1 = true →
      l ∈ e1.2.2 → l ∈ e2.2.2 →
      (∀ e ∈ t, l ∈ e.2.2 → e = e1 ∨ e = e2) →
      invLookup (buildInv (sortRevByName t)) l = some e1.2.1) := by
  constructor
  · exact sorted_sortRev LATEX_TABLE
  · intro t e1 e2 l h1 h2 hlt hl1 hl2 honly
    have hsorted := sorted_sortRev t
    have hrev : (sortRevByName t).reverse.Pairwise
        (fun a b : Entry => lexLe a.1 b.1 = true) := by
      rw [List.pairwise_reverse]
      exact hsorted
    have hfind : (sortRevByName t).reverse.find? (fun e => decide (l ∈ e.2.2))
        = some e1 := by
      refine find_sorted _ e1 e2 l hrev ?_ ?_ hlt hl1 hl2 ?_
      · rw [List.mem_reverse, mem_sortRev]; exact h1
      · rw [List.mem_reverse, mem_sortRev]; exact h2
      · intro e he
        rw [List.mem_reverse, mem_sortRev] at he
        exact honly e he
    show invLookup (List.foldl registerEntry [] (sortRevByName t)) l = some e1.2.1
    rw [invLookup_buildInv_aux, hfind]
    rfl

/-- C6 witness: on a two-entry table sharing the spelling [120], the
entry with the lexicographically earlier name "A" (registered later by
the descending sort) wins the inverse slot. -/
theorem claim_C6_witness :
    invLookup (buildInv (sortRevByName
      [(codes "B", 1, [[120]]), (codes "A", 2, [[120]])])) [120] = some 2 :=
  claim_C6.2 [(codes "B", 1, [[120]]), (codes "A", 2, [[120]])]
    (codes "A", 2, [[120]]) (codes "B", 1, [[120]]) [120]
    (by decide) (by decide) (by decide) (by decide) (by decide) (by decide)
